import Mathlib

/-!
Verification of the chromaprint fingerprint decompressor
(`src/fingerprint_decompressor.cpp`).

The decompressor decodes a byte buffer into a sequence of 32-bit codewords:
byte 0 is an algorithm identifier, bytes 1..3 a big-endian codeword count,
and the rest a bit-packed payload of 3-bit position codes (value 7 escaping
to an extra 5-bit group) that is unpacked into XOR-chained bitmasks.

The byte buffer is modelled as `List ℕ` (each entry a byte value), machine
integers as `ℕ` with explicit `% 2 ^ 32` where the source stores into
`uint32_t`.  The bit-cursor collaborator (`BitStringReader`) is not part of
the source fragment; it is modelled from the specification's contract (§6),
as noted on each of its definitions.  Fallible steps return `Option`.
-/

namespace Chromaprint

/-- Byte `i` of the buffer.  The source reads payload bytes through
`(unsigned char)`, i.e. values in `0..255`; model values are normalized with
`% 256` and missing indices read as `0`. -/
def byteAt (data : List ℕ) (i : ℕ) : ℕ := data.getD i 0 % 256

/-- Modelled from the spec: the bit-cursor collaborator (`BitStringReader`) is
external to the source fragment (§6).  Bit `i` of the buffer, numbered most
significant bit first inside each byte, consistent with the
"big-endian-within-group" read contract of §6 (the spec does not fix the
in-byte bit order; this model commits to the big-endian choice). -/
def bitAt (data : List ℕ) (i : ℕ) : ℕ := byteAt data (i / 8) / 2 ^ (7 - i % 8) % 2

/-- Modelled from the spec: value of the `n`-bit group starting at bit `pos`,
read as an unsigned big-endian-within-group integer (§6). -/
def groupVal (data : List ℕ) (pos : ℕ) : ℕ → ℕ
  | 0 => 0
  | n + 1 => groupVal data pos n * 2 + bitAt data (pos + n)

/-- Modelled from the spec: state of the bit cursor (§6) — the underlying
buffer and the current bit offset. -/
structure BitStringReader where
  data : List ℕ
  pos : ℕ
deriving DecidableEq

/-- Modelled from the spec: `available_bits()` — bits remaining from the
current cursor position to the end of the buffer (§6). -/
def BitStringReader.availableBits (r : BitStringReader) : ℕ :=
  8 * r.data.length - r.pos

/-- Modelled from the spec: `at_end()` / `eof()` — true when no bits remain
(§6). -/
def BitStringReader.eof (r : BitStringReader) : Bool :=
  r.availableBits == 0

/-- Modelled from the spec: `read(n_bits)` consumes the next `n` bits as an
unsigned big-endian-within-group integer and advances the cursor (§6).  The
contract does not define reads past the end of the data beyond the
end-of-data signal; a read of `n` bits with fewer than `n` bits remaining is
modelled as the failure `none`, which callers surface as a failed decode
(§4.2, §7). -/
def BitStringReader.read (r : BitStringReader) (n : ℕ) : Option (ℕ × BitStringReader) :=
  if n ≤ r.availableBits then
    some (groupVal r.data r.pos n, ⟨r.data, r.pos + n⟩)
  else
    none

/-- `kMaxNormalValue` from the source. -/
def kMaxNormalValue : ℕ := 7

/-- `kNormalBits` from the source. -/
def kNormalBits : ℕ := 3

/-- `kExceptionBits` from the source. -/
def kExceptionBits : ℕ := 5

/-- Loop body of `FingerprintDecompressor::ReadNormalBits`, stateless form:
read 3-bit groups until `remaining` zero-valued groups have been seen,
returning the list of group values read and the cursor afterwards.  The
`fuel` argument only drives structural recursion; each iteration consumes 3
bits, so `fuel = availableBits + 1` (as instantiated in `readCodes`) never
runs out before the cursor does. -/
def readCodesF : ℕ → BitStringReader → ℕ → Option (List ℕ × BitStringReader)
  | 0, _, _ => none
  | _ + 1, r, 0 => some ([], r)
  | fuel + 1, r, n + 1 =>
    match r.read kNormalBits with
    | none => none
    | some (bit, r') =>
      (readCodesF fuel r' (if bit = 0 then n else n + 1)).map fun p => (bit :: p.1, p.2)

/-- `FingerprintDecompressor::ReadNormalBits` as a pure function of the
cursor: codes read plus final cursor. -/
def readCodes (r : BitStringReader) (n : ℕ) : Option (List ℕ × BitStringReader) :=
  readCodesF (r.availableBits + 1) r n

/-- `FingerprintDecompressor::ReadNormalBits`, threading the `m_bits` member
the source pushes each group onto (the member is never cleared, so earlier
contents stay in front).  `fuel` as in `readCodesF`. -/
def readNormalBitsF : ℕ → BitStringReader → List ℕ → ℕ → Option (List ℕ × BitStringReader)
  | 0, _, _, _ => none
  | _ + 1, r, mBits, 0 => some (mBits, r)
  | fuel + 1, r, mBits, n + 1 =>
    match r.read kNormalBits with
    | none => none
    | some (bit, r') =>
      readNormalBitsF fuel r' (mBits ++ [bit]) (if bit = 0 then n else n + 1)

/-- `FingerprintDecompressor::ReadNormalBits` acting on the `m_bits` member. -/
def readNormalBits (r : BitStringReader) (mBits : List ℕ) (n : ℕ) :
    Option (List ℕ × BitStringReader) :=
  readNormalBitsF (r.availableBits + 1) r mBits n

/-- `FingerprintDecompressor::ReadExceptionBits`: scan the code sequence in
order; every entry equal to `kMaxNormalValue` (7) has the next 5-bit group
added to it in place; the source returns `false` (here `none`) when the
cursor is exhausted at an owed group. -/
def readExceptionBits : List ℕ → BitStringReader → Option (List ℕ × BitStringReader)
  | [], r => some ([], r)
  | c :: rest, r =>
    if c = kMaxNormalValue then
      if r.eof then none
      else
        match r.read kExceptionBits with
        | none => none
        | some (bits, r') =>
          (readExceptionBits rest r').map fun p => ((c + bits) :: p.1, p.2)
    else
      (readExceptionBits rest r).map fun p => (c :: p.1, p.2)

/-- Sentinel the result vector is filled with: `m_result.assign(length, -1)`
on `uint32_t` slots, i.e. all-ones. -/
def sentinel : ℕ := 2 ^ 32 - 1

/-- Loop of `FingerprintDecompressor::UnpackBits` over `m_bits`, with the
source's local state `i` (result index), `last_bit` and `value`.  Stores into
`m_result` are `uint32_t`, hence `% 2 ^ 32`; `value |= 1 << (bit - 1)` is
modelled on `ℕ` (for `bit - 1 ≥ 31` the C++ `int` shift has no defined
meaning — spec §4.4/§9 — and the model keeps the mathematical bit).  A store
at an index past the end of `m_result` is out of bounds in the source
(unreachable from a fresh decompressor, where `m_bits` holds exactly
`m_result.size()` zeros); `List.set` models it as a no-op. -/
def unpackBitsAux : List ℕ → ℕ → ℕ → ℕ → List ℕ → List ℕ
  | [], _, _, _, result => result
  | b :: rest, i, lastBit, value, result =>
    if b = 0 then
      let v := if 0 < i then (value ^^^ result.getD (i - 1) 0) % 2 ^ 32 else value % 2 ^ 32
      unpackBitsAux rest (i + 1) 0 0 (result.set i v)
    else
      let bit := b + lastBit
      unpackBitsAux rest i bit (value ||| 2 ^ (bit - 1)) result

/-- `FingerprintDecompressor::UnpackBits`: walk `m_bits` and fill `m_result`. -/
def unpackBits (bits result : List ℕ) : List ℕ :=
  unpackBitsAux bits 0 0 0 result

/-- Reconstruction exactly as worded in the specification (§4.4) and claim:
walk the code sequence with accumulator `current_value` (starts 0), counter
`last_position` (starts 0); on code 0 finalize the next slot (`current_value`
for slot 0, XOR with the previous slot otherwise) and reset; on code `c ≠ 0`
set bit `last_position + c - 1` and advance `last_position` by `c`.  The
output list is accumulated in reverse.  This second definition exists to be
compared with `unpackBits`, which is transcribed from the source. -/
def unpackSpecAux : List ℕ → ℕ → ℕ → List ℕ → List ℕ
  | [], _, _, acc => acc.reverse
  | c :: rest, currentValue, lastPosition, acc =>
    if c = 0 then
      let v := (if acc.isEmpty then currentValue else currentValue ^^^ acc.headD 0) % 2 ^ 32
      unpackSpecAux rest 0 0 (v :: acc)
    else
      unpackSpecAux rest (currentValue ||| 2 ^ (lastPosition + c - 1)) (lastPosition + c) acc

/-- Reconstruction per the specification's wording, from fresh state. -/
def unpackSpec (codes : List ℕ) : List ℕ :=
  unpackSpecAux codes 0 0 []

/-- `length` computed in `Decompress`:
`(data[1] << 16) | (data[2] << 8) | data[3]` on `unsigned char` values. -/
def declaredCount (data : List ℕ) : ℕ :=
  byteAt data 1 <<< 16 ||| byteAt data 2 <<< 8 ||| byteAt data 3

/-- Conversion applied by `*algorithm = data[0]`: `std::string::operator[]`
yields plain `char`, which is signed on the reference platforms — the source
casts to `(unsigned char)` where it needs byte values (bytes 1..3) but not
here — so byte values `128..255` sign-extend to negative `int`s. -/
def signedChar (b : ℕ) : ℤ :=
  if b % 256 < 128 then ((b % 256 : ℕ) : ℤ) else ((b % 256 : ℕ) : ℤ) - 256

/-- The `*algorithm` out-parameter of `Decompress`: set (for a caller that
passes a pointer) exactly when the buffer is at least 4 bytes, to `data[0]`
converted from `char` to `int`. -/
def algoOut (data : List ℕ) : Option ℤ :=
  if data.length < 4 then none else some (signedChar (byteAt data 0))

/-- `FingerprintDecompressor::Decompress` for a single call on a fresh
decompressor, with the initial fill of `m_result` as a parameter
(`m_result.assign(length, fill)`; the source uses `fill = -1`, i.e.
`sentinel`).  `none` models every path returning the empty vector after the
header parse.  The four `reader.Read(8)` header skips leave the cursor at
bit 32. -/
def decompressWithFill (fill : ℕ) (data : List ℕ) : Option (List ℕ) :=
  if data.length < 4 then none
  else if (⟨data, 32⟩ : BitStringReader).availableBits < declaredCount data * kNormalBits then
    none
  else
    match readCodes ⟨data, 32⟩ (declaredCount data) with
    | none => none
    | some (codes, reader') =>
      match readExceptionBits codes reader' with
      | none => none
      | some (codes', _) =>
        some (unpackBits codes' (List.replicate (declaredCount data) fill))

/-- `FingerprintDecompressor::Decompress` on a fresh decompressor with the
source's sentinel fill. -/
def decompressPure (data : List ℕ) : Option (List ℕ) :=
  decompressWithFill sentinel data

/-- The vector the caller actually receives: the source collapses every
failure to an empty `std::vector<uint32_t>`. -/
def decompressVec (data : List ℕ) : List ℕ :=
  (decompressPure data).getD []

/-- `FingerprintDecompressor::Decompress` as a transition on the object's
persistent `m_bits` member (the only member carrying data across calls:
`m_result` is re-`assign`ed before use every call, and `m_bits` is never
cleared).  Returns the result and the member's contents after the call.  On
the failure paths the decompressor is not meant to be reused; the member
value returned there is the pre-pass list (the source may additionally leave
partially pushed or partially resolved codes behind). -/
def decompressFrom (mBits : List ℕ) (data : List ℕ) : Option (List ℕ) × List ℕ :=
  if data.length < 4 then (none, mBits)
  else if (⟨data, 32⟩ : BitStringReader).availableBits < declaredCount data * kNormalBits then
    (none, mBits)
  else
    match readNormalBits ⟨data, 32⟩ mBits (declaredCount data) with
    | none => (none, mBits)
    | some (mBits1, reader') =>
      match readExceptionBits mBits1 reader' with
      | none => (none, mBits1)
      | some (mBits2, _) =>
        (some (unpackBits mBits2 (List.replicate (declaredCount data) sentinel)), mBits2)

/-- Number of occurrences of the escape value 7 in a code list. -/
def count7 : List ℕ → ℕ
  | [] => 0
  | c :: rest => (if c = 7 then 1 else 0) + count7 rest

/-- Number of zero (terminator) codes in a code list. -/
def count0 : List ℕ → ℕ
  | [] => 0
  | c :: rest => (if c = 0 then 1 else 0) + count0 rest

/-! Basic facts about the bit cursor. -/

theorem bitAt_lt (data : List ℕ) (i : ℕ) : bitAt data i < 2 :=
  Nat.mod_lt _ (by norm_num)

theorem groupVal_lt (data : List ℕ) (pos : ℕ) : ∀ n, groupVal data pos n < 2 ^ n := by
  intro n
  induction n with
  | zero => simp [groupVal]
  | succ n ih =>
    have hb : bitAt data (pos + n) < 2 := bitAt_lt data (pos + n)
    have hpow : 2 ^ (n + 1) = 2 ^ n * 2 := by ring
    have : groupVal data pos (n + 1) = groupVal data pos n * 2 + bitAt data (pos + n) := rfl
    omega

theorem read_eq_some {r : BitStringReader} {n : ℕ} {p : ℕ × BitStringReader} :
    r.read n = some p ↔
      n ≤ r.availableBits ∧ p = (groupVal r.data r.pos n, ⟨r.data, r.pos + n⟩) := by
  unfold BitStringReader.read
  split <;> rename_i h
  · simp [h, eq_comm]
  · simp [h]

theorem read_eq_none {r : BitStringReader} {n : ℕ} :
    r.read n = none ↔ r.availableBits < n := by
  unfold BitStringReader.read
  split <;> rename_i h <;> simp <;> omega

theorem availableBits_mk (data : List ℕ) (pos : ℕ) :
    (⟨data, pos⟩ : BitStringReader).availableBits = 8 * data.length - pos := rfl

theorem eof_iff {r : BitStringReader} : r.eof = true ↔ r.availableBits = 0 := by
  simp [BitStringReader.eof]

/-! Characterization of the normal-code pass. -/

theorem readCodesF_some {fuel : ℕ} :
    ∀ {r : BitStringReader} {n : ℕ} {codes : List ℕ} {r' : BitStringReader},
      readCodesF fuel r n = some (codes, r') →
      r'.data = r.data ∧ r'.pos = r.pos + 3 * codes.length ∧ count0 codes = n := by
  induction fuel with
  | zero => intro r n codes r' h; simp [readCodesF] at h
  | succ fuel ih =>
    intro r n codes r' h
    match n with
    | 0 =>
      simp only [readCodesF, Option.some.injEq, Prod.mk.injEq] at h
      obtain ⟨hc, hr⟩ := h
      subst hc; subst hr
      exact ⟨rfl, by simp, rfl⟩
    | n + 1 =>
      rw [readCodesF] at h
      cases hread : r.read kNormalBits with
      | none => rw [hread] at h; exact absurd h (by simp)
      | some br =>
        obtain ⟨bit, r₁⟩ := br
        rw [hread] at h
        dsimp only at h
        cases hrec : readCodesF fuel r₁ (if bit = 0 then n else n + 1) with
        | none => rw [hrec] at h; exact absurd h (by simp)
        | some p =>
          obtain ⟨codes₁, r₂⟩ := p
          rw [hrec] at h
          simp only [Option.map_some', Option.some.injEq, Prod.mk.injEq] at h
          obtain ⟨hc, hr⟩ := h
          subst hc; subst hr
          obtain ⟨hd, hp, hcount⟩ := ih hrec
          obtain ⟨hav, hpair⟩ := read_eq_some.mp hread
          have h1 : r₁ = ⟨r.data, r.pos + kNormalBits⟩ := congrArg Prod.snd hpair
          subst h1
          refine ⟨hd, ?_, ?_⟩
          · simp only [availableBits_mk, kNormalBits] at hp
            simp [hp, List.length_cons, kNormalBits]
            ring
          · simp only [count0]
            by_cases hb : bit = 0 <;> simp [hb] at hcount ⊢ <;> omega

theorem readCodes_some {r : BitStringReader} {n : ℕ} {codes : List ℕ} {r' : BitStringReader}
    (h : readCodes r n = some (codes, r')) :
    r'.data = r.data ∧ r'.pos = r.pos + 3 * codes.length ∧ count0 codes = n :=
  readCodesF_some h

theorem readNormalBitsF_eq {fuel : ℕ} :
    ∀ {r : BitStringReader} {mBits : List ℕ} {n : ℕ},
      readNormalBitsF fuel r mBits n =
        (readCodesF fuel r n).map fun p => (mBits ++ p.1, p.2) := by
  induction fuel with
  | zero => intro r mBits n; simp [readNormalBitsF, readCodesF]
  | succ fuel ih =>
    intro r mBits n
    match n with
    | 0 => simp [readNormalBitsF, readCodesF]
    | n + 1 =>
      rw [readNormalBitsF, readCodesF]
      cases hread : r.read kNormalBits with
      | none => simp
      | some br =>
        obtain ⟨bit, r₁⟩ := br
        simp only
        rw [ih]
        cases hrec : readCodesF fuel r₁ (if bit = 0 then n else n + 1) with
        | none => simp
        | some p => simp

theorem readNormalBits_eq (r : BitStringReader) (mBits : List ℕ) (n : ℕ) :
    readNormalBits r mBits n = (readCodes r n).map fun p => (mBits ++ p.1, p.2) :=
  readNormalBitsF_eq

/-! Characterization of the exception-code pass. -/

theorem readExceptionBits_some :
    ∀ (codes : List ℕ) (r : BitStringReader) {codes' : List ℕ} {r' : BitStringReader},
      readExceptionBits codes r = some (codes', r') →
      r'.data = r.data ∧ r'.pos = r.pos + 5 * count7 codes ∧
        codes'.length = codes.length ∧ count0 codes' = count0 codes ∧
        ∀ i, codes'.getD i 0 =
          if codes.getD i 0 = 7
          then 7 + groupVal r.data (r.pos + 5 * count7 (codes.take i)) 5
          else codes.getD i 0
  | [], r, codes', r', h => by
    simp only [readExceptionBits, Option.some.injEq, Prod.mk.injEq] at h
    obtain ⟨h1, h2⟩ := h
    subst h1; subst h2
    refine ⟨rfl, by simp [count7], rfl, rfl, fun i => ?_⟩
    simp
  | c :: rest, r, codes', r', h => by
    rw [readExceptionBits] at h
    simp only [kMaxNormalValue, kExceptionBits] at h
    by_cases hc : c = 7
    · rw [if_pos hc] at h
      subst hc
      by_cases heof : r.eof
      · rw [if_pos heof] at h; exact absurd h (by simp)
      · rw [if_neg heof] at h
        cases hread : r.read 5 with
        | none => rw [hread] at h; exact absurd h (by simp)
        | some br =>
          obtain ⟨bits, r₁⟩ := br
          rw [hread] at h
          dsimp only at h
          cases hrec : readExceptionBits rest r₁ with
          | none => rw [hrec] at h; exact absurd h (by simp)
          | some p =>
            obtain ⟨tail, r₂⟩ := p
            rw [hrec] at h
            simp only [Option.map_some', Option.some.injEq, Prod.mk.injEq] at h
            obtain ⟨h1, h2⟩ := h
            subst h1; subst h2
            obtain ⟨hav, hpair⟩ := read_eq_some.mp hread
            have hr₁ : r₁ = ⟨r.data, r.pos + 5⟩ := congrArg Prod.snd hpair
            have hbits : bits = groupVal r.data r.pos 5 := congrArg Prod.fst hpair
            subst hr₁
            obtain ⟨ihd, ihp, ihl, ihz, ihpt⟩ := readExceptionBits_some rest _ hrec
            refine ⟨by simpa using ihd, ?_, by simp [ihl], ?_, ?_⟩
            · simp only [count7]
              simp at ihp
              simp [ihp]
              ring
            · simp [count0, ihz]
            · intro i
              match i with
              | 0 =>
                simp [List.getD_cons_zero, count7, hbits]
              | i + 1 =>
                simp only [List.getD_cons_succ]
                rw [ihpt i]
                by_cases h7 : rest.getD i 0 = 7
                · rw [if_pos h7, if_pos h7]
                  have harith :
                      (⟨r.data, r.pos + 5⟩ : BitStringReader).pos + 5 * count7 (rest.take i) =
                        r.pos + 5 * count7 ((7 :: rest).take (i + 1)) := by
                    simp [List.take_succ_cons, count7]
                    ring
                  rw [harith]
                · rw [if_neg h7, if_neg h7]
    · rw [if_neg hc] at h
      cases hrec : readExceptionBits rest r with
      | none => rw [hrec] at h; exact absurd h (by simp)
      | some p =>
        obtain ⟨tail, r₂⟩ := p
        rw [hrec] at h
        simp only [Option.map_some', Option.some.injEq, Prod.mk.injEq] at h
        obtain ⟨h1, h2⟩ := h
        subst h1; subst h2
        obtain ⟨ihd, ihp, ihl, ihz, ihpt⟩ := readExceptionBits_some rest _ hrec
        refine ⟨ihd, ?_, by simp [ihl], ?_, ?_⟩
        · simp [count7, hc, ihp]
        · simp [count0, ihz]
        · intro i
          match i with
          | 0 => simp [List.getD_cons_zero, hc]
          | i + 1 =>
            simp only [List.getD_cons_succ]
            rw [ihpt i]
            by_cases h7 : rest.getD i 0 = 7
            · rw [if_pos h7, if_pos h7]
              have harith :
                  r.pos + 5 * count7 (rest.take i) =
                    r.pos + 5 * count7 ((c :: rest).take (i + 1)) := by
                simp [List.take_succ_cons, count7, hc]
              rw [harith]
            · rw [if_neg h7, if_neg h7]

theorem readExceptionBits_eq_none :
    ∀ (codes : List ℕ) (r : BitStringReader),
      readExceptionBits codes r = none ↔ r.availableBits < 5 * count7 codes
  | [], r => by simp [readExceptionBits, count7]
  | c :: rest, r => by
    rw [readExceptionBits]
    simp only [kMaxNormalValue, kExceptionBits]
    by_cases hc : c = 7
    · rw [if_pos hc]
      by_cases heof : r.eof
      · rw [if_pos heof]
        have h0 : r.availableBits = 0 := eof_iff.mp heof
        simp only [count7, hc, if_pos rfl, if_true, eq_self_iff_true]
        constructor
        · intro _; omega
        · intro _; trivial
      · rw [if_neg heof]
        have h0 : r.availableBits ≠ 0 := fun hz => heof (eof_iff.mpr hz)
        cases hread : r.read 5 with
        | none =>
          have h5 : r.availableBits < 5 := read_eq_none.mp hread
          simp only [count7, hc, if_pos rfl, if_true, eq_self_iff_true]
          constructor
          · intro _; omega
          · intro _; trivial
        | some br =>
          obtain ⟨bits, r₁⟩ := br
          obtain ⟨hav, hpair⟩ := read_eq_some.mp hread
          have hr₁ : r₁ = ⟨r.data, r.pos + 5⟩ := congrArg Prod.snd hpair
          subst hr₁
          dsimp only
          rw [Option.map_eq_none']
          rw [readExceptionBits_eq_none rest ⟨r.data, r.pos + 5⟩]
          simp only [count7, hc, if_pos rfl, if_true, eq_self_iff_true,
            BitStringReader.availableBits] at *
          constructor
          · intro h; omega
          · intro h; omega
    · rw [if_neg hc]
      rw [Option.map_eq_none']
      rw [readExceptionBits_eq_none rest r]
      simp [count7, hc]

/-! Arithmetic reading of the header length field. -/

theorem byteAt_lt (data : List ℕ) (i : ℕ) : byteAt data i < 256 :=
  Nat.mod_lt _ (by norm_num)

theorem shiftLeft_lor_eq_add {a b n : ℕ} (hb : b < 2 ^ n) :
    a <<< n ||| b = a * 2 ^ n + b := by
  apply Nat.eq_of_testBit_eq
  intro i
  rw [Nat.testBit_lor, Nat.testBit_shiftLeft]
  rw [show a * 2 ^ n + b = 2 ^ n * a + b by ring]
  rw [Nat.testBit_mul_pow_two_add a hb i]
  by_cases hin : i < n
  · have : ¬ i ≥ n := by omega
    simp [hin, this]
  · have hge : i ≥ n := by omega
    have hbf : b.testBit i = false :=
      Nat.testBit_lt_two_pow (lt_of_lt_of_le hb (Nat.pow_le_pow_right (by norm_num) hge))
    simp [hin, hge, hbf]

theorem declaredCount_eq (data : List ℕ) :
    declaredCount data =
      byteAt data 1 * 2 ^ 16 + byteAt data 2 * 2 ^ 8 + byteAt data 3 := by
  have h2 : byteAt data 2 < 256 := byteAt_lt data 2
  have h3 : byteAt data 3 < 256 := byteAt_lt data 3
  unfold declaredCount
  rw [Nat.lor_assoc]
  rw [shiftLeft_lor_eq_add (show byteAt data 3 < 2 ^ 8 by norm_num; omega)]
  rw [shiftLeft_lor_eq_add
    (show byteAt data 2 * 2 ^ 8 + byteAt data 3 < 2 ^ 16 by norm_num; omega)]
  ring

/-! The reconstruction loop agrees with the specification's wording and is
independent of the initial fill of `m_result`. -/

theorem getD_append_length (l₁ l₂ : List ℕ) (d : ℕ) :
    (l₁ ++ l₂).getD l₁.length d = l₂.getD 0 d := by
  induction l₁ with
  | nil => rfl
  | cons a t ih => exact ih

theorem set_append_length (l₁ l₂ : List ℕ) (v : ℕ) :
    (l₁ ++ l₂).set l₁.length v = l₁ ++ l₂.set 0 v := by
  induction l₁ with
  | nil => rfl
  | cons a t ih =>
    show a :: (t ++ l₂).set t.length v = a :: (t ++ l₂.set 0 v)
    rw [ih]

theorem unpackBitsAux_eq_spec :
    ∀ (codes : List ℕ) (cv lb : ℕ) (acc : List ℕ) (init k : ℕ),
      count0 codes = k →
      unpackBitsAux codes acc.length lb cv (acc.reverse ++ List.replicate k init) =
        unpackSpecAux codes cv lb acc
  | [], cv, lb, acc, init, k, hk => by
    simp only [count0] at hk
    subst hk
    simp [unpackBitsAux, unpackSpecAux]
  | c :: rest, cv, lb, acc, init, k, hk => by
    by_cases hc : c = 0
    · subst hc
      simp [count0] at hk
      cases k with
      | zero => omega
      | succ k' =>
        have hk' : count0 rest = k' := by omega
        rw [unpackBitsAux, unpackSpecAux]
        rw [if_pos rfl, if_pos rfl]
        dsimp only
        have hv :
            (if 0 < acc.length then
              (cv ^^^ (acc.reverse ++ List.replicate (k' + 1) init).getD (acc.length - 1) 0)
                % 2 ^ 32
            else cv % 2 ^ 32) =
            (if acc.isEmpty then cv else cv ^^^ acc.headD 0) % 2 ^ 32 := by
          match acc with
          | [] => simp
          | prev :: t =>
            have hpos : 0 < (prev :: t).length := by simp
            rw [if_pos hpos]
            have hidx : (prev :: t).length - 1 = t.reverse.length := by simp
            have hsplit :
                (prev :: t).reverse ++ List.replicate (k' + 1) init =
                  t.reverse ++ ([prev] ++ List.replicate (k' + 1) init) := by
              simp [List.reverse_cons]
            rw [hidx, hsplit, getD_append_length]
            simp
        rw [hv]
        set v := (if acc.isEmpty then cv else cv ^^^ acc.headD 0) % 2 ^ 32 with hvdef
        have hset :
            (acc.reverse ++ List.replicate (k' + 1) init).set acc.length v =
              (v :: acc).reverse ++ List.replicate k' init := by
          have hlen : acc.length = acc.reverse.length := by simp
          rw [hlen, set_append_length]
          simp [List.replicate_succ, List.reverse_cons]
        rw [hset]
        have hlen2 : acc.length + 1 = (v :: acc).length := by simp
        rw [hlen2]
        exact unpackBitsAux_eq_spec rest 0 0 (v :: acc) init k' hk'
    · simp only [count0, if_neg hc] at hk
      rw [unpackBitsAux, unpackSpecAux]
      rw [if_neg hc, if_neg hc]
      have hcomm : c + lb = lb + c := Nat.add_comm c lb
      rw [hcomm]
      exact unpackBitsAux_eq_spec rest (cv ||| 2 ^ (lb + c - 1)) (lb + c) acc init k (by omega)

theorem unpackBits_eq_spec {codes : List ℕ} {k init : ℕ} (hk : count0 codes = k) :
    unpackBits codes (List.replicate k init) = unpackSpec codes := by
  have h := unpackBitsAux_eq_spec codes 0 0 [] init k hk
  simpa [unpackBits, unpackSpec] using h

theorem unpackBitsAux_length :
    ∀ (codes : List ℕ) (i lb cv : ℕ) (res : List ℕ),
      (unpackBitsAux codes i lb cv res).length = res.length
  | [], _, _, _, _ => rfl
  | c :: rest, i, lb, cv, res => by
    rw [unpackBitsAux]
    by_cases hc : c = 0
    · rw [if_pos hc]
      rw [unpackBitsAux_length rest]
      simp
    · rw [if_neg hc]
      exact unpackBitsAux_length rest i (c + lb) (cv ||| 2 ^ (c + lb - 1)) res

theorem unpackBits_length (codes res : List ℕ) :
    (unpackBits codes res).length = res.length :=
  unpackBitsAux_length codes 0 0 0 res

/-! Shape of `Decompress` on its success and failure paths. -/

theorem decompressWithFill_eq_some {fill : ℕ} {data out : List ℕ}
    (h : decompressWithFill fill data = some out) :
    4 ≤ data.length ∧
      declaredCount data * kNormalBits ≤ (⟨data, 32⟩ : BitStringReader).availableBits ∧
      ∃ codes r' codes' r'',
        readCodes ⟨data, 32⟩ (declaredCount data) = some (codes, r') ∧
        readExceptionBits codes r' = some (codes', r'') ∧
        out = unpackBits codes' (List.replicate (declaredCount data) fill) := by
  unfold decompressWithFill at h
  split at h
  · exact absurd h (by simp)
  · next hlen =>
    split at h
    · exact absurd h (by simp)
    · next hguard =>
      cases hn : readCodes ⟨data, 32⟩ (declaredCount data) with
      | none => rw [hn] at h; exact absurd h (by simp)
      | some p =>
        obtain ⟨codes, r'⟩ := p
        rw [hn] at h
        dsimp only at h
        cases hex : readExceptionBits codes r' with
        | none => rw [hex] at h; exact absurd h (by simp)
        | some q =>
          obtain ⟨codes', r''⟩ := q
          rw [hex] at h
          simp only [Option.some.injEq] at h
          exact ⟨by omega, by omega, codes, r', codes', r'',
            rfl, hex, h.symm⟩

theorem decompressWithFill_eq_none_iff {fill : ℕ} {data : List ℕ} (h4 : 4 ≤ data.length) :
    decompressWithFill fill data = none ↔
      (⟨data, 32⟩ : BitStringReader).availableBits < declaredCount data * kNormalBits ∨
      readCodes ⟨data, 32⟩ (declaredCount data) = none ∨
      ∃ codes r', readCodes ⟨data, 32⟩ (declaredCount data) = some (codes, r') ∧
        r'.availableBits < 5 * count7 codes := by
  unfold decompressWithFill
  rw [if_neg (by omega)]
  split
  · next hguard => exact iff_of_true rfl (Or.inl hguard)
  · next hguard =>
    cases hn : readCodes ⟨data, 32⟩ (declaredCount data) with
    | none => exact iff_of_true rfl (Or.inr (Or.inl rfl))
    | some p =>
      obtain ⟨codes, r'⟩ := p
      dsimp only
      cases hex : readExceptionBits codes r' with
      | none =>
        refine iff_of_true rfl (Or.inr (Or.inr ⟨codes, r', rfl, ?_⟩))
        exact (readExceptionBits_eq_none codes r').mp hex
      | some q =>
        obtain ⟨codes', r''⟩ := q
        refine iff_of_false (by simp) ?_
        rintro (hg | hnone | ⟨codes₁, r₁, hsome, hlt⟩)
        · exact hguard hg
        · simp at hnone
        · simp only [Option.some.injEq, Prod.mk.injEq] at hsome
          obtain ⟨hc, hr⟩ := hsome
          subst hc; subst hr
          have hnone := (readExceptionBits_eq_none codes r').mpr hlt
          rw [hnone] at hex
          exact absurd hex (by simp)

/-! Claim theorems. -/

/-- C1: Reconstruction walks the resolved position-code sequence with
accumulator `current_value` (starts 0), counter `last_position` (starts 0)
and result index `i` (starts 0): code 0 finalizes slot `i` as the
accumulator (XORed with the previous slot when `i > 0`) and resets the
state; code `c ≠ 0` sets bit `last_position + c - 1` and advances
`last_position` by `c`.  Proved as agreement of the source loop
(`unpackBits` on a fill-initialized result of matching length) with the
claim-worded walk `unpackSpec`, plus the claim's concrete scenario:
declared count 2, segments `[0]` and `[3, 0]`, output `[0, 4]`. -/
theorem unpack_reconstruction_correct :
    (∀ (codes : List ℕ) (n init : ℕ), count0 codes = n →
      unpackBits codes (List.replicate n init) = unpackSpec codes) ∧
    decompressPure [1, 0, 0, 2, 12, 0] = some [0, 4] := by
  constructor
  · intro codes n init hk
    exact unpackBits_eq_spec hk
  · decide

/-- Witness for C1: the hypothesis `count0 codes = n` holds at the concrete
resolved sequence `[0, 3, 0]` with `n = 2`, and the theorem applies there. -/
theorem unpack_reconstruction_correct_witness :
    count0 [0, 3, 0] = 2 ∧
      unpackBits [0, 3, 0] (List.replicate 2 sentinel) = unpackSpec [0, 3, 0] :=
  ⟨by decide, unpack_reconstruction_correct.1 [0, 3, 0] 2 sentinel (by decide)⟩

/-- C2: In the exception pass, scanning in sequence order, every entry equal
to 7 is replaced in place by 7 plus the next 5-bit group read from the
cursor (the groups are consumed consecutively, in the order the 7-entries
appear), resolving to `7 + k` with `k < 32`, i.e. a value in `7..38`;
entries `0..6`, including the terminator 0, are returned unchanged. -/
theorem exception_escape_resolution (codes : List ℕ) (r : BitStringReader)
    (codes' : List ℕ) (r' : BitStringReader)
    (h : readExceptionBits codes r = some (codes', r')) :
    codes'.length = codes.length ∧
    ∀ i,
      (codes.getD i 0 = 7 →
        codes'.getD i 0 = 7 + groupVal r.data (r.pos + 5 * count7 (codes.take i)) 5 ∧
        groupVal r.data (r.pos + 5 * count7 (codes.take i)) 5 < 32 ∧
        7 ≤ codes'.getD i 0 ∧ codes'.getD i 0 ≤ 38) ∧
      (codes.getD i 0 ≠ 7 → codes'.getD i 0 = codes.getD i 0) := by
  obtain ⟨-, -, hlen, -, hpt⟩ := readExceptionBits_some codes r h
  refine ⟨hlen, fun i => ⟨fun h7 => ?_, fun h7 => ?_⟩⟩
  · have hlt : groupVal r.data (r.pos + 5 * count7 (codes.take i)) 5 < 32 := by
      have hg := groupVal_lt r.data (r.pos + 5 * count7 (codes.take i)) 5
      norm_num at hg
      exact hg
    have heq := hpt i
    rw [if_pos h7] at heq
    exact ⟨heq, hlt, by omega, by omega⟩
  · have heq := hpt i
    rw [if_neg h7] at heq
    exact heq

/-- Witness for C2: the two-codeword sequence `[7, 0]` over the single
payload byte `176 = 0b10110000` resolves its escape entry to
`7 + 22 = 29 ≤ 38` and leaves the terminator untouched. -/
theorem exception_escape_resolution_witness :
    ([29, 0] : List ℕ).getD 0 0 = 7 + groupVal [176] 0 5 ∧
      ([29, 0] : List ℕ).getD 0 0 ≤ 38 ∧
      ([29, 0] : List ℕ).getD 1 0 = ([7, 0] : List ℕ).getD 1 0 := by
  have h := exception_escape_resolution [7, 0] ⟨[176], 0⟩ [29, 0] ⟨[176], 5⟩ (by decide)
  obtain ⟨-, hpt⟩ := h
  obtain ⟨h1, h2, -, h4⟩ := (hpt 0).1 (by decide)
  refine ⟨?_, h4, (hpt 1).2 (by decide)⟩
  simpa [count7] using h1

/-- C3: Second-pass alignment: when the normal-code pass over the payload
(starting at bit 32, right after the header) returns `codes`, it has
consumed exactly `3 * codes.length` payload bits, and an exception pass run
after the rewind starts reading its 5-bit groups exactly at that boundary,
consuming them consecutively in the order the 7-entries appear. -/
theorem second_pass_alignment (data codes : List ℕ) (r' : BitStringReader)
    (h : readCodes ⟨data, 32⟩ (declaredCount data) = some (codes, r')) :
    r'.data = data ∧ r'.pos = 32 + 3 * codes.length ∧
    ∀ (codes' : List ℕ) (r'' : BitStringReader),
      readExceptionBits codes r' = some (codes', r'') →
      (∀ i, codes.getD i 0 = 7 →
        codes'.getD i 0 =
          7 + groupVal data (32 + 3 * codes.length + 5 * count7 (codes.take i)) 5) ∧
      r''.pos = 32 + 3 * codes.length + 5 * count7 codes := by
  obtain ⟨hd, hp, -⟩ := readCodes_some h
  have hd' : r'.data = data := hd
  have hp' : r'.pos = 32 + 3 * codes.length := by simpa using hp
  refine ⟨hd', hp', fun codes' r'' hex => ?_⟩
  obtain ⟨-, hp2, -, -, hpt⟩ := readExceptionBits_some codes r' hex
  constructor
  · intro i h7
    have heq := hpt i
    rw [if_pos h7] at heq
    rw [heq, hd', hp']
  · rw [hp2, hp']

/-- Witness for C3 on the buffer `[0, 0, 0, 1, 226, 160]`: the normal pass
returns `[7, 0]` ending at bit `38 = 32 + 3 * 2`, and the exception group
for the single 7-entry is read at exactly that bit, yielding `7 + 21 = 28`. -/
theorem second_pass_alignment_witness :
    (⟨[0, 0, 0, 1, 226, 160], 38⟩ : BitStringReader).pos =
        32 + 3 * ([7, 0] : List ℕ).length ∧
      ([28, 0] : List ℕ).getD 0 0 =
        7 + groupVal [0, 0, 0, 1, 226, 160]
          (32 + 3 * ([7, 0] : List ℕ).length + 5 * count7 (([7, 0] : List ℕ).take 0)) 5 := by
  have h := second_pass_alignment [0, 0, 0, 1, 226, 160] [7, 0]
    ⟨[0, 0, 0, 1, 226, 160], 38⟩ (by decide)
  exact ⟨h.2.1, (h.2.2 [28, 0] ⟨[0, 0, 0, 1, 226, 160], 43⟩ (by decide)).1 0 (by decide)⟩

/-- C4: Malformed-stream failure: a buffer that passes the length and
lower-bound checks but whose payload exhausts the cursor before producing
`declared_count` zero-valued 3-bit groups makes the whole decode fail — the
caller receives `none`, collapsed to the same empty vector as a `Truncated`
failure. -/
theorem malformed_stream_fails (data : List ℕ)
    (h4 : 4 ≤ data.length)
    (hguard : ¬ (⟨data, 32⟩ : BitStringReader).availableBits <
      declaredCount data * kNormalBits)
    (hmal : readCodes ⟨data, 32⟩ (declaredCount data) = none) :
    decompressPure data = none ∧ decompressVec data = [] := by
  have hnone : decompressPure data = none := by
    unfold decompressPure decompressWithFill
    rw [if_neg (by omega), if_neg hguard, hmal]
  exact ⟨hnone, by simp [decompressVec, hnone]⟩

/-- Witness for C4: `[0, 0, 0, 1, 255]` declares one codeword and passes the
lower bound (8 payload bits ≥ 3), but its payload `0b11111111` yields codes
7, 7 and then exhausts, so the decode fails. -/
theorem malformed_stream_fails_witness :
    decompressPure [0, 0, 0, 1, 255] = none ∧ decompressVec [0, 0, 0, 1, 255] = [] :=
  malformed_stream_fails [0, 0, 0, 1, 255] (by decide) (by decide) (by decide)

/-- C5 is false as stated: for the buffer `[0, 0, 0, 1, 219]` (length ≥ 4,
lower bound passed) the decode fails, yet neither (a) the lower-bound check
fails nor (b) the exception pass runs out of data — the failure comes from
the normal-code pass exhausting the cursor, which the claim's
"exactly when (a) or (b)" excludes. -/
theorem truncated_iff_counterexample :
    ¬ (decompressPure [0, 0, 0, 1, 219] = none ↔
        ((⟨[0, 0, 0, 1, 219], 32⟩ : BitStringReader).availableBits <
            declaredCount [0, 0, 0, 1, 219] * kNormalBits ∨
          ∃ codes r',
            readCodes ⟨[0, 0, 0, 1, 219], 32⟩ (declaredCount [0, 0, 0, 1, 219]) =
              some (codes, r') ∧
            readExceptionBits codes r' = none)) := by
  intro h
  have hnone : decompressPure [0, 0, 0, 1, 219] = none := by decide
  rcases h.mp hnone with hguard | ⟨codes, r', hsome, -⟩
  · exact absurd hguard (by decide)
  · have hrc : readCodes ⟨[0, 0, 0, 1, 219], 32⟩ (declaredCount [0, 0, 0, 1, 219]) =
        none := by decide
    rw [hrc] at hsome
    exact absurd hsome (by simp)

/-- C5 (amended): for every buffer of length ≥ 4, the decode fails (and the
caller receives the empty vector) exactly when (a) the bits after the header
are fewer than `declared_count × 3`, or the normal-code pass exhausts the
cursor before `declared_count` terminators, or fewer than 5 bits remain when
a 5-bit exception group is owed to a 7-entry (in particular when the cursor
is exhausted there). -/
theorem decode_failure_characterization (data : List ℕ) (h4 : 4 ≤ data.length) :
    decompressPure data = none ↔
      (⟨data, 32⟩ : BitStringReader).availableBits < declaredCount data * kNormalBits ∨
      readCodes ⟨data, 32⟩ (declaredCount data) = none ∨
      ∃ codes r', readCodes ⟨data, 32⟩ (declaredCount data) = some (codes, r') ∧
        r'.availableBits < 5 * count7 codes :=
  decompressWithFill_eq_none_iff h4

/-- Witness for C5 (amended) at `[0, 0, 0, 3, 0]`: three codewords are
declared but only 8 payload bits remain (8 < 9), and the decode fails. -/
theorem decode_failure_characterization_witness :
    decompressPure [0, 0, 0, 3, 0] = none :=
  (decode_failure_characterization [0, 0, 0, 3, 0] (by decide)).mpr (Or.inl (by decide))

/-- C6: For every successful decode, the output length equals the big-endian
24-bit unsigned integer formed from bytes 1..3 of the buffer. -/
theorem output_length_eq_declared_count (data out : List ℕ)
    (h : decompressPure data = some out) :
    out.length = byteAt data 1 * 2 ^ 16 + byteAt data 2 * 2 ^ 8 + byteAt data 3 := by
  obtain ⟨-, -, codes, r', codes', r'', -, -, hout⟩ := decompressWithFill_eq_some h
  rw [hout, unpackBits_length, List.length_replicate, declaredCount_eq]

/-- Witness for C6: the buffer `[0, 0, 0, 1, 32]` decodes successfully to
`[1]`, whose length is the declared count 1. -/
theorem output_length_eq_declared_count_witness :
    ([1] : List ℕ).length =
      byteAt [0, 0, 0, 1, 32] 1 * 2 ^ 16 + byteAt [0, 0, 0, 1, 32] 2 * 2 ^ 8 +
        byteAt [0, 0, 0, 1, 32] 3 :=
  output_length_eq_declared_count [0, 0, 0, 1, 32] [1] (by decide)

/-- C7 is false as stated: this buffer (declared count 1, thirty-two codes
of value 1 followed by the terminator) decodes successfully to
`[0xFFFFFFFF]` — a slot equal to the all-ones sentinel, because the encoded
codeword legitimately has all 32 bits set. -/
theorem sentinel_in_successful_output :
    decompressPure
        [1, 0, 0, 1, 36, 146, 73, 36, 146, 73, 36, 146, 73, 36, 146, 73, 0] =
      some [sentinel] := by
  decide

/-- C7 (amended): every slot of a decode's output is overwritten during
reconstruction — the output never depends on the value the result vector was
initialized with (so no uninitialized slot can leak; an output slot may still
equal the all-ones value when that is the decoded codeword). -/
theorem output_independent_of_fill (fill : ℕ) (data : List ℕ) :
    decompressWithFill fill data = decompressPure data := by
  unfold decompressPure decompressWithFill
  split
  · rfl
  · split
    · rfl
    · cases hn : readCodes ⟨data, 32⟩ (declaredCount data) with
      | none => rfl
      | some p =>
        obtain ⟨codes, r'⟩ := p
        dsimp only
        cases hex : readExceptionBits codes r' with
        | none => rfl
        | some q =>
          obtain ⟨codes', r''⟩ := q
          dsimp only
          obtain ⟨-, -, -, hz, -⟩ := readExceptionBits_some codes r' hex
          obtain ⟨-, -, hcount⟩ := readCodes_some hn
          have hz' : count0 codes' = declaredCount data := by rw [hz, hcount]
          rw [unpackBits_eq_spec hz', unpackBits_eq_spec hz']

/-- C8 is false as stated: the algorithm identifier is not passed through
unchanged for every byte value 0..255 — byte 0 = 255 is reported as `-1`
(the source assigns plain `char` to `int` without the `(unsigned char)` cast
it uses for bytes 1..3, so high byte values sign-extend). -/
theorem algorithm_id_sign_extension :
    algoOut [255, 0, 0, 0] = some (-1) ∧ algoOut [255, 0, 0, 0] ≠ some (255 : ℤ) := by
  decide

/-- C8 (amended): for every buffer of length ≥ 4 (and a caller requesting
it), the reported identifier is byte 0 converted from signed `char` to
`int`: unchanged for byte values 0..127, and byte − 256 for 128..255. -/
theorem algorithm_id_reported (data : List ℕ) (h4 : 4 ≤ data.length) :
    algoOut data = some (signedChar (byteAt data 0)) ∧
    (byteAt data 0 < 128 → algoOut data = some ((byteAt data 0 : ℤ))) ∧
    (128 ≤ byteAt data 0 → algoOut data = some ((byteAt data 0 : ℤ) - 256)) := by
  have hb : byteAt data 0 < 256 := byteAt_lt data 0
  have hmod : byteAt data 0 % 256 = byteAt data 0 := Nat.mod_eq_of_lt hb
  have h1 : algoOut data = some (signedChar (byteAt data 0)) := by
    unfold algoOut
    rw [if_neg (by omega)]
  refine ⟨h1, fun hlt => ?_, fun hge => ?_⟩
  · rw [h1]; unfold signedChar; rw [hmod, if_pos hlt]
  · rw [h1]; unfold signedChar; rw [hmod, if_neg (by omega)]

/-- Witness for C8 (amended): byte 0 = 5 is reported unchanged as 5. -/
theorem algorithm_id_reported_witness :
    algoOut [5, 0, 0, 0] = some (5 : ℤ) := by
  have h := (algorithm_id_reported [5, 0, 0, 0] (by decide)).2.1 (by decide)
  simpa [byteAt] using h

/-- C9 is false as stated: the `m_bits` member persists across calls, so a
`Decompress` call is not a function of its own buffer alone.  Calling on
buffer `[0, 0, 0, 1, 64]` (output `[2]`) and then on `[0, 0, 0, 1, 32]`
returns `[2]` again, while a fresh decompressor on the second buffer returns
`[1]`. -/
theorem state_crosses_calls :
    decompressFrom [] [0, 0, 0, 1, 64] = (some [2], [2, 0]) ∧
    (decompressFrom [2, 0] [0, 0, 0, 1, 32]).1 = some [2] ∧
    (decompressFrom [] [0, 0, 0, 1, 32]).1 = some [1] ∧
    (decompressFrom [2, 0] [0, 0, 0, 1, 32]).1 ≠
      (decompressFrom [] [0, 0, 0, 1, 32]).1 := by
  decide

/-- C9 (amended): a single call on a freshly constructed decompressor
(empty `m_bits`) is a pure function of its input buffer — it equals the
stateless pipeline `decompressPure`; statelessness fails only across calls
on the same object, through the persisted `m_bits` member. -/
theorem fresh_call_is_pure (data : List ℕ) :
    (decompressFrom [] data).1 = decompressPure data := by
  unfold decompressFrom decompressPure decompressWithFill
  split
  · rfl
  · split
    · rfl
    · rw [readNormalBits_eq]
      cases hn : readCodes ⟨data, 32⟩ (declaredCount data) with
      | none => rfl
      | some p =>
        obtain ⟨codes, r'⟩ := p
        dsimp only [Option.map_some', List.nil_append]
        cases hex : readExceptionBits codes r' with
        | none => rfl
        | some q => rfl

/-- C10: A buffer of length ≥ 4 whose bytes 1..3 are zero (declared count 0)
decodes successfully: the algorithm id is reported, the output is `some []`,
and the vector handed to the caller is the same empty vector returned on
every failure, so the caller cannot tell this success from a failure by the
vector alone. -/
theorem zero_count_decode (data : List ℕ) (h4 : 4 ≤ data.length)
    (h1 : byteAt data 1 = 0) (h2 : byteAt data 2 = 0) (h3 : byteAt data 3 = 0) :
    decompressPure data = some [] ∧
    algoOut data = some (signedChar (byteAt data 0)) ∧
    decompressVec data = [] ∧
    ∀ d', decompressPure d' = none → decompressVec d' = decompressVec data := by
  have hcount : declaredCount data = 0 := by
    rw [declaredCount_eq, h1, h2, h3]
    norm_num
  have hsome : decompressPure data = some [] := by
    unfold decompressPure decompressWithFill
    rw [if_neg (by omega), hcount]
    rw [if_neg (by simp)]
    have hrc : readCodes ⟨data, 32⟩ 0 = some ([], ⟨data, 32⟩) := rfl
    rw [hrc]
    rfl
  have halgo : algoOut data = some (signedChar (byteAt data 0)) := by
    unfold algoOut
    rw [if_neg (by omega)]
  refine ⟨hsome, halgo, by simp [decompressVec, hsome], fun d' hd' => ?_⟩
  simp [decompressVec, hd', hsome]

/-- Witness for C10 at the four-byte buffer `[9, 0, 0, 0]`. -/
theorem zero_count_decode_witness :
    decompressPure [9, 0, 0, 0] = some [] ∧ algoOut [9, 0, 0, 0] = some (9 : ℤ) := by
  have h := zero_count_decode [9, 0, 0, 0] (by decide) (by decide) (by decide) (by decide)
  refine ⟨h.1, ?_⟩
  rw [h.2.1]
  decide

end Chromaprint
